import Mathlib

/-
Verification of the diff-parsing and change-classification engine
(src/services/diffParser.js).  JavaScript strings are modelled as
List Char; JS objects are modelled as records in which an absent key
is `none`; a thrown JS exception is modelled with `Except JSError`.
All definitions are translated line by line from the source file.
-/

/-- Exceptions the embedded JavaScript fragment can raise. -/
inductive JSError where
  | typeError
  | referenceError
deriving DecidableEq, Repr

/-- The character class backslash-s of JS regular expressions
(ASCII whitespace plus NBSP; exotic Unicode spaces are not used by any
input considered here). -/
def jsWs (c : Char) : Bool :=
  c == ' ' || c == '\t' || c == '\n' || c == '\r' ||
  c == Char.ofNat 11 || c == Char.ofNat 12 || c == Char.ofNat 160

/-- The character class backslash-w of JS regular expressions. -/
def jsWord (c : Char) : Bool :=
  c.isAlpha || c.isDigit || c == '_'

/-- The dot class of JS regular expressions: any character except
line terminators. -/
def jsDot (c : Char) : Bool :=
  !(c == '\n' || c == '\r' || c == Char.ofNat 8232 || c == Char.ofNat 8233)

/-- The class matched by the bracket expression of the java function
pattern: word characters, angle brackets, square brackets, comma and
whitespace. -/
def javaTypeChar (c : Char) : Bool :=
  jsWord c || c == '<' || c == '>' || c == '[' || c == ']' || c == ',' || jsWs c

/-- Syntax of the regular-expression fragment used by diffParser.js:
single characters, character classes, sequencing, alternation, optional
groups, star and plus over a character class, and the end anchor. -/
inductive RE where
  | epsR
  | chr (c : Char)
  | cls (p : Char → Bool)
  | seq (a b : RE)
  | alt (a b : RE)
  | opt (a : RE)
  | star0 (p : Char → Bool)
  | star1 (p : Char → Bool)
  | endA

/-- Matching a starred character class with a continuation: try every
split point. -/
def acceptStar (p : Char → Bool) : List Char → (List Char → Bool) → Bool
  | [], k => k []
  | c :: cs, k => k (c :: cs) || (p c && acceptStar p cs k)

/-- Backtracking matcher in continuation-passing style.  `accept r cs k`
decides whether some prefix of `cs` matches `r` with the rest accepted
by `k`. -/
def accept : RE → List Char → (List Char → Bool) → Bool
  | .epsR, cs, k => k cs
  | .chr _, [], _ => false
  | .chr c, d :: cs, k => d == c && k cs
  | .cls _, [], _ => false
  | .cls p, d :: cs, k => p d && k cs
  | .seq a b, cs, k => accept a cs (fun rest => accept b rest k)
  | .alt a b, cs, k => accept a cs k || accept b cs k
  | .opt a, cs, k => accept a cs k || k cs
  | .star0 p, cs, k => acceptStar p cs k
  | .star1 _, [], _ => false
  | .star1 p, c :: cs, k => p c && acceptStar p cs k
  | .endA, cs, k => cs.isEmpty && k cs

/-- Unanchored search: try to match at every start position. -/
def reSearch (r : RE) : List Char → Bool
  | [] => accept r [] (fun _ => true)
  | c :: cs => accept r (c :: cs) (fun _ => true) || reSearch r cs

/-- A JS regex literal: its body plus whether it is anchored at the
start with a caret. -/
structure JSRegex where
  anchored : Bool
  re : RE

/-- The boolean test of a JS regex on a string (RegExp.test, and
RegExp match used for its truthiness). -/
def jsTest (rx : JSRegex) (cs : List Char) : Bool :=
  if rx.anchored then accept rx.re cs (fun _ => true) else reSearch rx.re cs

/-- A literal character sequence as a regex. -/
def strREL : List Char → RE
  | [] => .epsR
  | c :: l => .seq (.chr c) (strREL l)

/-- A literal string as a regex. -/
def strRE (s : String) : RE := strREL s.toList

/-- Right-nested sequencing of a list of regexes. -/
def seqList : List RE → RE
  | [] => .epsR
  | r :: rs => .seq r (seqList rs)

/-- Zero or more whitespace characters. -/
def ws0 : RE := .star0 jsWs

/-- One or more whitespace characters. -/
def ws1 : RE := .star1 jsWs

/-- One or more word characters. -/
def word1 : RE := .star1 jsWord

/-- Syntactic criterion: every string matched by the regex contains the
character `c`. -/
def mustContain (c : Char) : RE → Bool
  | .epsR => false
  | .chr d => d == c
  | .cls _ => false
  | .seq a b => mustContain c a || mustContain c b
  | .alt a b => mustContain c a && mustContain c b
  | .opt _ => false
  | .star0 _ => false
  | .star1 _ => false
  | .endA => false

/-- Declarative matching semantics for the regex fragment. -/
inductive RMatch : RE → List Char → Prop where
  | eps : RMatch .epsR []
  | chr {c : Char} : RMatch (.chr c) [c]
  | cls {p : Char → Bool} {c : Char} : p c = true → RMatch (.cls p) [c]
  | seq {a b : RE} {xs ys : List Char} :
      RMatch a xs → RMatch b ys → RMatch (.seq a b) (xs ++ ys)
  | altL {a b : RE} {xs : List Char} : RMatch a xs → RMatch (.alt a b) xs
  | altR {a b : RE} {xs : List Char} : RMatch b xs → RMatch (.alt a b) xs
  | optS {a : RE} {xs : List Char} : RMatch a xs → RMatch (.opt a) xs
  | optN {a : RE} : RMatch (.opt a) []
  | star0 {p : Char → Bool} {xs : List Char} :
      xs.all p = true → RMatch (.star0 p) xs
  | star1 {p : Char → Bool} {xs : List Char} :
      xs.all p = true → xs ≠ [] → RMatch (.star1 p) xs
  | endA : RMatch .endA []

/-- Splitting a character list on a separator, mirroring the JS
String.prototype.split with a one-character separator. -/
def splitOnCharAux (sep : Char) : List Char → List Char → List (List Char)
  | [], acc => [acc.reverse]
  | c :: cs, acc =>
    if c == sep then acc.reverse :: splitOnCharAux sep cs []
    else splitOnCharAux sep cs (c :: acc)

/-- JS split with a one-character separator. -/
def splitOnChar (sep : Char) (cs : List Char) : List (List Char) :=
  splitOnCharAux sep cs []

/-- patch.split with the newline separator, as at the top of
getAddedLines and getDeletedLines. -/
def splitLines (patch : String) : List (List Char) :=
  splitOnChar '\n' patch.toList

/-- JS String.prototype.startsWith. -/
def startsWithL (pat cs : List Char) : Bool := pat.isPrefixOf cs

/-- JS String.prototype.replace with a plain string pattern: removes the
first occurrence only. -/
def removeFirstOcc (pat : List Char) : List Char → List Char
  | [] => []
  | c :: cs =>
    if pat.isPrefixOf (c :: cs) then (c :: cs).drop pat.length
    else c :: removeFirstOcc pat cs

/-- JS String.prototype.trim (over the whitespace class above). -/
def trimList (cs : List Char) : List Char :=
  ((cs.dropWhile jsWs).reverse.dropWhile jsWs).reverse

/-- The last element of a list of strings, as Array.prototype.pop on
the (always non-empty) result of a JS split. -/
def lastOr (d : List Char) : List (List Char) → List Char
  | [] => d
  | [x] => x
  | _ :: x :: xs => lastOr d (x :: xs)

/-- Decides whether `pat` occurs as a contiguous segment of a list. -/
def containsSeq (pat : List Char) : List Char → Bool
  | [] => pat.isEmpty
  | c :: cs => pat.isPrefixOf (c :: cs) || containsSeq pat cs

/-- A line record produced by the trackers.  The source builds objects
with keys lineNumber and content; the sibling reader of these records
accesses a key named context, so both keys are modelled, an absent key
being `none`. -/
structure DiffLine where
  lineNumber : Nat
  content : Option (List Char) := none
  context : Option (List Char) := none
deriving DecidableEq, Repr

/-- digit run extraction used by the hunk-header pattern. -/
def digitsVal (ds : List Char) : Nat :=
  ds.foldl (fun a c => a * 10 + (c.toNat - 48)) 0

/-- Consumes an optional comma-plus-digits group, as the two optional
groups of the hunk-header regex. -/
def chompCommaDigits (cs : List Char) : List Char :=
  match cs with
  | ',' :: rest =>
    if (rest.takeWhile Char.isDigit).isEmpty then cs
    else rest.dropWhile Char.isDigit
  | _ => cs

/-- The part of the hunk-header regex after the opening at-at space
minus marker: digits (optional comma digits) space plus digits
(optional comma digits) space at-at, anything afterwards; yields the
digits captured after the plus sign, read in base ten as by parseInt. -/
def parseHunkTail (rest : List Char) : Option Nat :=
  if (rest.takeWhile Char.isDigit).isEmpty then none
  else
    match chompCommaDigits (rest.dropWhile Char.isDigit) with
    | ' ' :: '+' :: r2 =>
      if (r2.takeWhile Char.isDigit).isEmpty then none
      else
        match chompCommaDigits (r2.dropWhile Char.isDigit) with
        | ' ' :: '@' :: '@' :: _ => some (digitsVal (r2.takeWhile Char.isDigit))
        | _ => none
    | _ => none

/-- The hunk-header regex of the source, anchored at the start. -/
def parseHunkHeader (l : List Char) : Option Nat :=
  if startsWithL ("@@ -".toList) l then parseHunkTail (l.drop 4) else none

/-- The loop of getAddedLines: hunk headers reset the counter, added
lines are recorded at the current counter which then advances, context
lines advance the counter, anything else is skipped. -/
def getAddedLinesGo : List (List Char) → Nat → List DiffLine
  | [], _ => []
  | l :: rest, n =>
    match parseHunkHeader l with
    | some v => getAddedLinesGo rest v
    | none =>
      if startsWithL ['+'] l && !startsWithL ['+', '+', '+'] l then
        { lineNumber := n, content := some l.tail } :: getAddedLinesGo rest (n + 1)
      else if startsWithL [' '] l then
        getAddedLinesGo rest (n + 1)
      else
        getAddedLinesGo rest n

/-- getAddedLines of the source. -/
def getAddedLines (patch : String) : List DiffLine :=
  getAddedLinesGo (splitLines patch) 0

/-- The loop of getDeletedLines.  Note that the source increments the
counter after recording a removed line (newLineNumber++ in the branch
for lines starting with a minus sign). -/
def getDeletedLinesGo : List (List Char) → Nat → List DiffLine
  | [], _ => []
  | l :: rest, n =>
    match parseHunkHeader l with
    | some v => getDeletedLinesGo rest v
    | none =>
      if startsWithL ['-'] l && !startsWithL ['-', '-', '-'] l then
        { lineNumber := n, content := some l.tail } :: getDeletedLinesGo rest (n + 1)
      else if startsWithL [' '] l then
        getDeletedLinesGo rest (n + 1)
      else
        getDeletedLinesGo rest n

/-- getDeletedLines of the source. -/
def getDeletedLines (patch : String) : List DiffLine :=
  getDeletedLinesGo (splitLines patch) 0

/-- The per-line transformation of detectLanguage once a line whose trim
starts with the plus-plus-plus marker is found: remove the first
occurrence of the marker, remove the first occurrence of the b-slash
sequence, trim, split on dots and pop the last part. -/
def extractExtension (trimmedLine : List Char) : List Char :=
  lastOr []
    (splitOnChar '.'
      (trimList (removeFirstOcc ("b/".toList) (removeFirstOcc ("+++".toList) trimmedLine))))

/-- The scan of detectLanguage over the patch lines. -/
def detectLanguageGo : List (List Char) → Option (List Char)
  | [] => none
  | l :: rest =>
    if startsWithL ("+++".toList) (trimList l) then some (extractExtension (trimList l))
    else detectLanguageGo rest

/-- detectLanguage of the source; the fallthrough return of null is
modelled as `none`. -/
def detectLanguage (patch : String) : Option (List Char) :=
  detectLanguageGo (splitLines patch)

/-- The eight test-filename regexes of isTestFile, in source order. -/
def testPatterns : List JSRegex :=
  [ ⟨false, seqList [.chr '.', strRE "test", .chr '.']⟩,
    ⟨false, seqList [.chr '.', strRE "spec", .chr '.']⟩,
    ⟨false, strRE "__tests__/"⟩,
    ⟨false, seqList [strRE "_test", .chr '.']⟩,
    ⟨false, seqList [.chr '.', strRE "test", .endA]⟩,
    ⟨false, seqList [.chr '.', strRE "spec", .endA]⟩,
    ⟨false, seqList [strRE "test_", .star0 jsDot, .chr '.', strRE "py", .endA]⟩,
    ⟨false, seqList [.star0 jsDot, strRE "_test", .chr '.', strRE "py", .endA]⟩ ]

/-- isTestFile of the source over character lists. -/
def isTestFileL (cs : List Char) : Bool :=
  testPatterns.any fun p => jsTest p cs

/-- isTestFile of the source. -/
def isTestFile (filename : String) : Bool := isTestFileL filename.toList

/-- RegExp.test applied to a JS null coerces it to the string "null";
this is what happens when analyzeDiff passes the result of
detectLanguage straight into isTestFile. -/
def isTestFileJS (v : Option (List Char)) : Bool :=
  isTestFileL (match v with | none => "null".toList | some s => s)

/-- Coercion a JS regex applies to an undefined argument: the string
"undefined". -/
def jsToStr (v : Option (List Char)) : List Char :=
  match v with
  | none => "undefined".toList
  | some s => s

/-- The exclusion regex of containsNewFunctions: caret, optional
whitespace, one of the control-flow keywords, optional whitespace, an
opening parenthesis. -/
def excludeRE : JSRegex :=
  ⟨true, seqList
    [ ws0,
      .alt (strRE "for") (.alt (strRE "while") (.alt (strRE "if")
        (.alt (strRE "else") (.alt (strRE "switch") (strRE "catch"))))),
      ws0, .chr '(' ]⟩

/-- The boolean exclusion check of containsNewFunctions. -/
def excludeTest (cs : List Char) : Bool := jsTest excludeRE cs

/-- js function-declaration pattern. -/
def jsFunctionRE : JSRegex :=
  ⟨true, seqList [ws0, .opt (seqList [strRE "export", ws1]),
    .opt (seqList [strRE "async", ws1]), strRE "function", ws1, word1, ws0, .chr '(']⟩

/-- js arrow-function pattern. -/
def jsArrowRE : JSRegex :=
  ⟨true, seqList [ws0, .opt (seqList [strRE "export", ws1]),
    .alt (strRE "const") (.alt (strRE "let") (strRE "var")), ws1, word1, ws0,
    .chr '=', ws0, .opt (seqList [strRE "async", ws0]),
    .chr '(', .star0 (fun c => !(c == ')')), .chr ')', ws0, strRE "=>"]⟩

/-- js function-expression pattern. -/
def jsExpressionRE : JSRegex :=
  ⟨true, seqList [ws0, .opt (seqList [strRE "export", ws1]),
    .alt (strRE "const") (.alt (strRE "let") (strRE "var")), ws1, word1, ws0,
    .chr '=', ws0, .opt (seqList [strRE "async", ws1]), strRE "function", ws0, .chr '(']⟩

/-- js class-method pattern (ends with an opening brace). -/
def jsMethodRE : JSRegex :=
  ⟨true, seqList [ws0, .opt (seqList [strRE "async", ws1]), word1, ws0,
    .chr '(', .star0 (fun c => !(c == ')')), .chr ')', ws0, .chr (Char.ofNat 123)]⟩

/-- python def pattern. -/
def pyFunctionRE : JSRegex :=
  ⟨true, seqList [ws0, .opt (seqList [strRE "async", ws1]), strRE "def", ws1,
    word1, ws0, .chr '(']⟩

/-- java method pattern. -/
def javaFunctionRE : JSRegex :=
  ⟨true, seqList [ws0,
    .opt (.alt (strRE "public") (.alt (strRE "private") (strRE "protected"))), ws0,
    .opt (strRE "static"), ws0, .opt (strRE "final"), ws0,
    .star1 javaTypeChar, ws1, word1, ws0, .chr '(']⟩

/-- go func pattern. -/
def goFunctionRE : JSRegex :=
  ⟨true, seqList [ws0, strRE "func", ws1,
    .opt (seqList [.chr '(', word1, ws1, .opt (.chr '*'), word1, .chr ')', ws0]),
    word1, ws0, .chr '(']⟩

/-- The language table of containsNewFunctions (keys js, py, java, go);
lookup with a null language finds no entry, like a JS property read with
a coerced key. -/
def funcTable (language : Option (List Char)) : Option (List JSRegex) :=
  match language with
  | some l =>
    if l == "js".toList then some [jsFunctionRE, jsArrowRE, jsExpressionRE, jsMethodRE]
    else if l == "py".toList then some [pyFunctionRE]
    else if l == "java".toList then some [javaFunctionRE]
    else if l == "go".toList then some [goFunctionRE]
    else none
  | none => none

/-- The result record built by containsNewFunctions. -/
structure FunctionResults where
  hasNewFunctions : Bool
  newFunctions : List (List Char)
  lineNumbers : List Nat
  language : Option (List Char)
deriving DecidableEq, Repr

/-- The forEach loop of containsNewFunctions.  Each record is read at
the key context (the trackers store the text under content, so the read
yields undefined).  The exclusion test coerces an undefined context to
the string "undefined"; calling match on an undefined context then
raises a TypeError as soon as the pattern table is non-empty.  On a
string context, the first matching pattern pushes the trimmed line and
its number, then stops checking further patterns. -/
def cnfGo (table : List JSRegex) : List DiffLine → Except JSError (List (List Char) × List Nat)
  | [] => .ok ([], [])
  | d :: rest =>
    if excludeTest (jsToStr d.context) then cnfGo table rest
    else
      match d.context with
      | none => if table.isEmpty then cnfGo table rest else .error .typeError
      | some s =>
        if table.any (fun rx => jsTest rx s) then
          match cnfGo table rest with
          | .error e => .error e
          | .ok (fns, nums) => .ok (trimList s :: fns, d.lineNumber :: nums)
        else cnfGo table rest

/-- containsNewFunctions of the source: a language without a pattern
table yields the empty result (after a logged warning); otherwise the
loop above runs and hasNewFunctions reflects whether anything was
pushed. -/
def containsNewFunctions (addedLines : List DiffLine) (language : Option (List Char)) :
    Except JSError FunctionResults :=
  match funcTable language with
  | none => .ok { hasNewFunctions := false, newFunctions := [], lineNumbers := [],
                  language := language }
  | some table =>
    match cnfGo table addedLines with
    | .error e => .error e
    | .ok (fns, nums) => .ok { hasNewFunctions := !fns.isEmpty, newFunctions := fns,
                               lineNumbers := nums, language := language }

/-- js and ts import pattern. -/
def jsImportRE : JSRegex :=
  ⟨false, .alt (seqList [strRE "import", ws1, .star0 jsDot, strRE "from"])
               (seqList [strRE "require", ws0, .chr '('])⟩

/-- python import pattern. -/
def pyImportRE : JSRegex :=
  ⟨false, .alt (seqList [strRE "import", ws1])
               (seqList [strRE "from", ws1, .star0 jsDot, strRE "import"])⟩

/-- java import pattern. -/
def javaImportRE : JSRegex := ⟨false, seqList [strRE "import", ws1]⟩

/-- go import pattern. -/
def goImportRE : JSRegex := ⟨false, seqList [strRE "import", ws1, .chr '(']⟩

/-- rust use pattern. -/
def rustImportRE : JSRegex := ⟨false, seqList [strRE "use", ws1]⟩

/-- ruby require pattern. -/
def rubyImportRE : JSRegex := ⟨false, seqList [strRE "require", ws1]⟩

/-- The language table of containsImports. -/
def importTable (language : Option (List Char)) : Option JSRegex :=
  match language with
  | some l =>
    if l == "js".toList then some jsImportRE
    else if l == "ts".toList then some jsImportRE
    else if l == "py".toList then some pyImportRE
    else if l == "java".toList then some javaImportRE
    else if l == "go".toList then some goImportRE
    else if l == "rust".toList then some rustImportRE
    else if l == "ruby".toList then some rubyImportRE
    else none
  | none => none

/-- The forEach loop of containsImports: tests each record at the key
context (undefined for tracker records, coerced to the string
"undefined") and pushes the raw context value on a match. -/
def containsImportsGo (rx : JSRegex) : List DiffLine → List (Option (List Char))
  | [] => []
  | d :: rest =>
    if jsTest rx (jsToStr d.context) then d.context :: containsImportsGo rx rest
    else containsImportsGo rx rest

/-- containsImports of the source.  Unlike containsNewFunctions it has
no guard for a missing table: the table entry for an unsupported
language is undefined, and calling test on it raises a TypeError as
soon as the loop body runs (an empty collection never runs the body and
returns the empty list). -/
def containsImports (addedLines : List DiffLine) (language : Option (List Char)) :
    Except JSError (List (Option (List Char))) :=
  match importTable language with
  | some rx => .ok (containsImportsGo rx addedLines)
  | none =>
    match addedLines with
    | [] => .ok []
    | _ :: _ => .error .typeError

/-- hasTestChanges of the source: its loop body reads a variable named
language that is not declared anywhere in the module, so the first
iteration raises a ReferenceError; with an empty collection the body
never runs and the function falls through without a return statement,
i.e. yields undefined (`none`). -/
def hasTestChangesFn (addedLines : List DiffLine) : Except JSError (Option Bool) :=
  match addedLines with
  | [] => .ok none
  | _ :: _ => .error .referenceError

/-- The record built by analyzeDiff.  hasTestChanges is either the JS
boolean false (`some false`), or undefined (`none`) when the
hasTestChanges helper falls through. -/
structure AnalysisResult where
  addedLines : List DiffLine
  deletedLines : List DiffLine
  filename : Option (List Char)
  isTestFile : Bool
  hasNewFunctions : FunctionResults
  hasImportChanges : List (Option (List Char))
  hasTestChanges : Option Bool
deriving DecidableEq, Repr

/-- analyzeDiff of the source.  The object literal evaluates its fields
in order, calling the pure helpers afresh each time exactly as the
source does; the first raised exception aborts the whole call. -/
def analyzeDiff (patch : String) : Except JSError AnalysisResult :=
  match containsNewFunctions (getAddedLines patch) (detectLanguage patch) with
  | .error e => .error e
  | .ok fnRes =>
    match containsImports (getAddedLines patch) (detectLanguage patch) with
    | .error e => .error e
    | .ok impRes =>
      match (if isTestFileJS (detectLanguage patch)
             then hasTestChangesFn (getAddedLines patch)
             else .ok (some false)) with
      | .error e => .error e
      | .ok tc =>
        .ok { addedLines := getAddedLines patch,
              deletedLines := getDeletedLines patch,
              filename := detectLanguage patch,
              isTestFile := isTestFileJS (detectLanguage patch),
              hasNewFunctions := fnRes,
              hasImportChanges := impRes,
              hasTestChanges := tc }

/-- The module exports a single pre-instantiated DiffParser.  The class
declares no instance fields, so the instance state is trivial. -/
def diffParserState : Unit := ()

/-- A call of analyzeDiff through the exported singleton, with the
instance state threaded explicitly. -/
def analyzeDiffCall (s : Unit) (patch : String) :
    Except JSError AnalysisResult × Unit :=
  (analyzeDiff patch, s)

/-- The counter value after the added-lines loop has processed a list
of lines, starting from `n`. -/
def counterAfter : List (List Char) → Nat → Nat
  | [], n => n
  | l :: rest, n =>
    match parseHunkHeader l with
    | some v => counterAfter rest v
    | none =>
      if startsWithL ['+'] l && !startsWithL ['+', '+', '+'] l then
        counterAfter rest (n + 1)
      else if startsWithL [' '] l then
        counterAfter rest (n + 1)
      else
        counterAfter rest n

/-- Soundness of the starred-class matcher: a success splits the input
into a matched part all of whose characters satisfy the class, and a
rest accepted by the continuation. -/
theorem acceptStar_sound (p : Char → Bool) :
    ∀ (cs : List Char) (k : List Char → Bool), acceptStar p cs k = true →
    ∃ xs ys, cs = xs ++ ys ∧ xs.all p = true ∧ k ys = true := by
  intro cs
  induction cs with
  | nil =>
    intro k h
    exact ⟨[], [], rfl, rfl, by simpa [acceptStar] using h⟩
  | cons c cs ih =>
    intro k h
    simp only [acceptStar, Bool.or_eq_true, Bool.and_eq_true] at h
    rcases h with h | ⟨hpc, h⟩
    · exact ⟨[], c :: cs, rfl, rfl, h⟩
    · obtain ⟨xs, ys, heq, hall, hk⟩ := ih k h
      exact ⟨c :: xs, ys, by simp [heq], by simp [hpc, hall], hk⟩

/-- Soundness of the backtracking matcher with respect to the
declarative semantics. -/
theorem accept_sound : ∀ (r : RE) (cs : List Char) (k : List Char → Bool),
    accept r cs k = true → ∃ xs ys, cs = xs ++ ys ∧ RMatch r xs ∧ k ys = true := by
  intro r
  induction r with
  | epsR =>
    intro cs k h
    exact ⟨[], cs, rfl, RMatch.eps, by simpa [accept] using h⟩
  | chr c =>
    intro cs k h
    cases cs with
    | nil => simp [accept] at h
    | cons d cs =>
      simp only [accept, Bool.and_eq_true, beq_iff_eq] at h
      obtain ⟨heq, hk⟩ := h
      refine ⟨[d], cs, rfl, ?_, hk⟩
      rw [heq]
      exact RMatch.chr
  | cls p =>
    intro cs k h
    cases cs with
    | nil => simp [accept] at h
    | cons d cs =>
      simp only [accept, Bool.and_eq_true] at h
      obtain ⟨hp, hk⟩ := h
      exact ⟨[d], cs, rfl, RMatch.cls hp, hk⟩
  | seq a b iha ihb =>
    intro cs k h
    simp only [accept] at h
    obtain ⟨xs, ys, rfl, hma, hk⟩ := iha cs _ h
    obtain ⟨us, vs, rfl, hmb, hk2⟩ := ihb ys k hk
    exact ⟨xs ++ us, vs, by simp, RMatch.seq hma hmb, hk2⟩
  | alt a b iha ihb =>
    intro cs k h
    simp only [accept, Bool.or_eq_true] at h
    rcases h with h | h
    · obtain ⟨xs, ys, rfl, hm, hk⟩ := iha cs k h
      exact ⟨xs, ys, rfl, RMatch.altL hm, hk⟩
    · obtain ⟨xs, ys, rfl, hm, hk⟩ := ihb cs k h
      exact ⟨xs, ys, rfl, RMatch.altR hm, hk⟩
  | opt a iha =>
    intro cs k h
    simp only [accept, Bool.or_eq_true] at h
    rcases h with h | h
    · obtain ⟨xs, ys, rfl, hm, hk⟩ := iha cs k h
      exact ⟨xs, ys, rfl, RMatch.optS hm, hk⟩
    · exact ⟨[], cs, rfl, RMatch.optN, h⟩
  | star0 p =>
    intro cs k h
    obtain ⟨xs, ys, rfl, hall, hk⟩ := acceptStar_sound p cs k (by simpa [accept] using h)
    exact ⟨xs, ys, rfl, RMatch.star0 hall, hk⟩
  | star1 p =>
    intro cs k h
    cases cs with
    | nil => simp [accept] at h
    | cons c cs =>
      simp only [accept, Bool.and_eq_true] at h
      obtain ⟨hpc, h⟩ := h
      obtain ⟨xs, ys, heq, hall, hk⟩ := acceptStar_sound p cs k h
      exact ⟨c :: xs, ys, by simp [heq], RMatch.star1 (by simp [hpc, hall]) (by simp), hk⟩
  | endA =>
    intro cs k h
    simp only [accept, Bool.and_eq_true] at h
    obtain ⟨he, hk⟩ := h
    have hnil : cs = [] := List.isEmpty_iff.mp he
    subst hnil
    exact ⟨[], [], rfl, RMatch.endA, hk⟩

/-- Soundness of the unanchored search. -/
theorem reSearch_sound (r : RE) : ∀ cs, reSearch r cs = true →
    ∃ pre xs ys, cs = pre ++ xs ++ ys ∧ RMatch r xs := by
  intro cs
  induction cs with
  | nil =>
    intro h
    obtain ⟨xs, ys, heq, hm, _⟩ := accept_sound r [] _ (by simpa [reSearch] using h)
    exact ⟨[], xs, ys, by simp [heq], hm⟩
  | cons c cs ih =>
    intro h
    simp only [reSearch, Bool.or_eq_true] at h
    rcases h with h | h
    · obtain ⟨xs, ys, heq, hm, _⟩ := accept_sound r (c :: cs) _ h
      exact ⟨[], xs, ys, by simp [heq], hm⟩
    · obtain ⟨pre, xs, ys, heq, hm⟩ := ih h
      exact ⟨c :: pre, xs, ys, by simp [heq], hm⟩

/-- Soundness of the regex test: a success exhibits a matched segment. -/
theorem jsTest_sound (rx : JSRegex) (cs : List Char) (h : jsTest rx cs = true) :
    ∃ pre xs ys, cs = pre ++ xs ++ ys ∧ RMatch rx.re xs := by
  unfold jsTest at h
  by_cases ha : rx.anchored
  · rw [if_pos ha] at h
    obtain ⟨xs, ys, heq, hm, _⟩ := accept_sound rx.re cs _ h
    exact ⟨[], xs, ys, by simp [heq], hm⟩
  · rw [if_neg ha] at h
    exact reSearch_sound rx.re cs h

/-- A literal-sequence regex matches exactly its literal. -/
theorem strREL_match : ∀ (l xs : List Char), RMatch (strREL l) xs → xs = l := by
  intro l
  induction l with
  | nil =>
    intro xs h
    simp only [strREL] at h
    cases h
    rfl
  | cons c l ih =>
    intro xs h
    simp only [strREL] at h
    cases h with
    | seq hma hmb =>
      cases hma
      rw [ih _ hmb]
      rfl

/-- A match of a regex that syntactically must contain a character does
contain it. -/
theorem mustContain_spec : ∀ (r : RE) (c : Char) (xs : List Char),
    mustContain c r = true → RMatch r xs → c ∈ xs := by
  intro r
  induction r with
  | epsR => intro c xs h _; simp [mustContain] at h
  | chr d =>
    intro c xs h hm
    simp only [mustContain, beq_iff_eq] at h
    subst h
    cases hm
    simp
  | cls p => intro c xs h _; simp [mustContain] at h
  | seq a b iha ihb =>
    intro c xs h hm
    simp only [mustContain, Bool.or_eq_true] at h
    cases hm with
    | seq h1 h2 =>
      rcases h with h | h
      · exact List.mem_append_left _ (iha c _ h h1)
      · exact List.mem_append_right _ (ihb c _ h h2)
  | alt a b iha ihb =>
    intro c xs h hm
    simp only [mustContain, Bool.and_eq_true] at h
    cases hm with
    | altL h1 => exact iha c _ h.1 h1
    | altR h2 => exact ihb c _ h.2 h2
  | opt a iha => intro c xs h _; simp [mustContain] at h
  | star0 p => intro c xs h _; simp [mustContain] at h
  | star1 p => intro c xs h _; simp [mustContain] at h
  | endA => intro c xs h _; simp [mustContain] at h

/-- A list containing a contiguous occurrence of `pat` passes the
contiguous-occurrence test. -/
theorem containsSeq_append : ∀ (pat pre ys : List Char),
    containsSeq pat (pre ++ pat ++ ys) = true := by
  intro pat pre
  induction pre with
  | nil =>
    intro ys
    cases hp : pat with
    | nil =>
      cases ys with
      | nil => rfl
      | cons y ys => simp [containsSeq, List.isPrefixOf]
    | cons p ps =>
      have hpre : (p :: ps).isPrefixOf ((p :: ps) ++ ys) = true :=
        List.isPrefixOf_iff_prefix.mpr (List.prefix_append _ _)
      simp [containsSeq, hpre]
  | cons a pre ih =>
    intro ys
    simp only [List.cons_append, containsSeq, Bool.or_eq_true]
    exact Or.inr (ih ys)

/-- A successful isTestFile match forces a dot in the filename, except
for the directory pattern which forces a contiguous tests-directory
marker. -/
theorem isTestFileL_true_cases (cs : List Char) (h : isTestFileL cs = true) :
    '.' ∈ cs ∨ containsSeq ("__tests__/".toList) cs = true := by
  have hdot : ∀ rx : JSRegex, mustContain '.' rx.re = true → jsTest rx cs = true → '.' ∈ cs := by
    intro rx hmc ht
    obtain ⟨pre, xs, ys, heq, hm⟩ := jsTest_sound rx cs ht
    have hx := mustContain_spec rx.re '.' xs hmc hm
    subst heq
    simp only [List.append_assoc, List.mem_append]
    exact Or.inr (Or.inl hx)
  simp only [isTestFileL, testPatterns, List.any_cons, List.any_nil, Bool.or_eq_true,
    Bool.or_eq_false_iff] at h
  rcases h with h | h | h | h | h | h | h | h | h
  · exact Or.inl (hdot _ (by decide) h)
  · exact Or.inl (hdot _ (by decide) h)
  · obtain ⟨pre, xs, ys, heq, hm⟩ := jsTest_sound _ cs h
    have hx : xs = "__tests__/".toList := strREL_match _ _ hm
    subst hx
    subst heq
    exact Or.inr (containsSeq_append _ _ _)
  · exact Or.inl (hdot _ (by decide) h)
  · exact Or.inl (hdot _ (by decide) h)
  · exact Or.inl (hdot _ (by decide) h)
  · exact Or.inl (hdot _ (by decide) h)
  · exact Or.inl (hdot _ (by decide) h)
  · exact absurd h (by simp)

/-- A filename without a dot and without the tests-directory marker is
not classified as a test file. -/
theorem isTestFileL_false_of (ext : List Char) (h1 : '.' ∉ ext)
    (h2 : containsSeq ("__tests__/".toList) ext = false) : isTestFileL ext = false := by
  cases hb : isTestFileL ext
  · rfl
  · rcases isTestFileL_true_cases ext hb with h | h
    · exact absurd h h1
    · exact absurd (h2.symm.trans h) (by decide)

/-- A JS split never yields an empty array of parts. -/
theorem splitOnCharAux_ne_nil (sep : Char) :
    ∀ (cs acc : List Char), splitOnCharAux sep cs acc ≠ [] := by
  intro cs
  induction cs with
  | nil => intro acc; simp [splitOnCharAux]
  | cons c cs ih =>
    intro acc
    simp only [splitOnCharAux]
    by_cases hc : (c == sep) = true
    · rw [if_pos hc]; simp
    · rw [if_neg hc]; exact ih _

/-- No part produced by a JS split contains the separator. -/
theorem splitOnCharAux_no_sep (sep : Char) :
    ∀ (cs acc l : List Char), sep ∉ acc → l ∈ splitOnCharAux sep cs acc → sep ∉ l := by
  intro cs
  induction cs with
  | nil =>
    intro acc l hacc hl
    simp only [splitOnCharAux, List.mem_singleton] at hl
    subst hl
    intro hm
    exact hacc (by simpa using hm)
  | cons c cs ih =>
    intro acc l hacc hl
    simp only [splitOnCharAux] at hl
    by_cases hc : (c == sep) = true
    · rw [if_pos hc] at hl
      rcases List.mem_cons.mp hl with rfl | hl
      · intro hm
        exact hacc (by simpa using hm)
      · exact ih [] l (by simp) hl
    · rw [if_neg hc] at hl
      refine ih (c :: acc) l ?_ hl
      intro hm
      rcases List.mem_cons.mp hm with heq | hm
      · exact hc (by simp [heq])
      · exact hacc hm

/-- Array.prototype.pop on a non-empty array returns one of its
elements. -/
theorem lastOr_mem (d : List Char) :
    ∀ xs : List (List Char), xs ≠ [] → lastOr d xs ∈ xs := by
  intro xs
  induction xs with
  | nil => intro h; exact absurd rfl h
  | cons x xs ih =>
    intro _
    cases xs with
    | nil => simp [lastOr]
    | cons y ys =>
      simp only [lastOr]
      exact List.mem_cons_of_mem _ (ih (by simp))

/-- The scan of detectLanguage returns none when no line (after
trimming) starts with the target-file marker. -/
theorem detectLanguageGo_none : ∀ ls : List (List Char),
    ls.all (fun l => !startsWithL ("+++".toList) (trimList l)) = true →
    detectLanguageGo ls = none := by
  intro ls
  induction ls with
  | nil => intro _; rfl
  | cons l ls ih =>
    intro h
    simp only [List.all_cons, Bool.and_eq_true, Bool.not_eq_true'] at h
    simp only [detectLanguageGo, h.1, Bool.false_eq_true, if_false]
    exact ih (by simpa using h.2)

/-- The extension detectLanguage extracts never contains a dot: it is
one part of a split on dots. -/
theorem detectLanguage_no_dot : ∀ (patch : String) (ext : List Char),
    detectLanguage patch = some ext → '.' ∉ ext := by
  have go : ∀ (ls : List (List Char)) (ext : List Char),
      detectLanguageGo ls = some ext → '.' ∉ ext := by
    intro ls
    induction ls with
    | nil => intro ext h; simp [detectLanguageGo] at h
    | cons l ls ih =>
      intro ext h
      simp only [detectLanguageGo] at h
      by_cases hc : startsWithL ("+++".toList) (trimList l) = true
      · rw [if_pos hc] at h
        injection h with h
        subst h
        unfold extractExtension
        have hne := splitOnCharAux_ne_nil '.'
          (trimList (removeFirstOcc ("b/".toList) (removeFirstOcc ("+++".toList) (trimList l)))) []
        have hmem := lastOr_mem []
          (splitOnChar '.'
            (trimList (removeFirstOcc ("b/".toList) (removeFirstOcc ("+++".toList) (trimList l)))))
          hne
        exact splitOnCharAux_no_sep '.' _ [] _ (by simp) hmem
      · rw [if_neg hc] at h
        exact ih ext h
  intro patch ext h
  exact go (splitLines patch) ext h

/-- A line recognized as a hunk header starts with the at-at marker. -/
theorem parseHunkHeader_some_shape (l : List Char) (v : Nat)
    (h : parseHunkHeader l = some v) :
    ∃ rest, l = '@' :: '@' :: ' ' :: '-' :: rest := by
  unfold parseHunkHeader at h
  by_cases hp : startsWithL ("@@ -".toList) l = true
  · have hpre := List.isPrefixOf_iff_prefix.mp hp
    obtain ⟨t, ht⟩ := hpre
    exact ⟨t, by rw [← ht]; rfl⟩
  · rw [if_neg hp] at h
    exact absurd h (by simp)

/-- A hunk-header line starts with neither a plus, a minus, nor a
space. -/
theorem parseHunkHeader_not_marker (l : List Char) (v : Nat)
    (h : parseHunkHeader l = some v) :
    startsWithL ['+'] l = false ∧ startsWithL ['-'] l = false ∧
    startsWithL [' '] l = false := by
  obtain ⟨rest, hrest⟩ := parseHunkHeader_some_shape l v h
  subst hrest
  exact ⟨rfl, rfl, rfl⟩

/-- The added-lines loop distributes over list concatenation, the
second part starting at the counter value left by the first. -/
theorem getAddedLinesGo_append : ∀ (xs ys : List (List Char)) (n : Nat),
    getAddedLinesGo (xs ++ ys) n =
    getAddedLinesGo xs n ++ getAddedLinesGo ys (counterAfter xs n) := by
  intro xs
  induction xs with
  | nil => intro ys n; rfl
  | cons l xs ih =>
    intro ys n
    cases h : parseHunkHeader l with
    | some v =>
      simp only [List.cons_append, getAddedLinesGo, counterAfter, h]
      exact ih ys v
    | none =>
      by_cases h1 : (startsWithL ['+'] l && !startsWithL ['+', '+', '+'] l) = true
      · simp only [List.cons_append, getAddedLinesGo, counterAfter, h, h1, if_true]
        simp [ih ys (n + 1)]
      · have h1' : (startsWithL ['+'] l && !startsWithL ['+', '+', '+'] l) = false := by
          simpa using h1
        by_cases h2 : startsWithL [' '] l = true
        · simp only [List.cons_append, getAddedLinesGo, counterAfter, h, h1',
            Bool.false_eq_true, if_false, h2, if_true]
          exact ih ys (n + 1)
        · have h2' : startsWithL [' '] l = false := by simpa using h2
          simp only [List.cons_append, getAddedLinesGo, counterAfter, h, h1', h2',
            Bool.false_eq_true, if_false]
          exact ih ys n

/-- Within a header-free run of lines, recorded line numbers are at
least the starting counter and strictly increasing. -/
theorem getAddedLinesGo_mono : ∀ (ls : List (List Char)) (n : Nat),
    (∀ l ∈ ls, parseHunkHeader l = none) →
    (∀ d ∈ getAddedLinesGo ls n, n ≤ d.lineNumber) ∧
    List.Chain' (· < ·) ((getAddedLinesGo ls n).map (fun d => d.lineNumber)) := by
  intro ls
  induction ls with
  | nil =>
    intro n _
    exact ⟨by simp [getAddedLinesGo], by simp [getAddedLinesGo]⟩
  | cons l ls ih =>
    intro n hh
    have hl : parseHunkHeader l = none := hh l (by simp)
    have hrest : ∀ x ∈ ls, parseHunkHeader x = none :=
      fun x hx => hh x (List.mem_cons_of_mem _ hx)
    simp only [getAddedLinesGo, hl]
    by_cases h1 : (startsWithL ['+'] l && !startsWithL ['+', '+', '+'] l) = true
    · rw [if_pos h1]
      obtain ⟨ihb, ihc⟩ := ih (n + 1) hrest
      constructor
      · intro d hd
        rcases List.mem_cons.mp hd with rfl | hd
        · simp
        · exact Nat.le_of_succ_le (ihb d hd)
      · simp only [List.map_cons]
        rw [List.chain'_cons']
        refine ⟨?_, ihc⟩
        intro y hy
        have hy' := List.mem_of_mem_head? hy
        simp only [List.mem_map] at hy'
        obtain ⟨d, hd, rfl⟩ := hy'
        exact Nat.lt_of_succ_le (ihb d hd)
    · rw [if_neg h1]
      by_cases h2 : startsWithL [' '] l = true
      · rw [if_pos h2]
        obtain ⟨ihb, ihc⟩ := ih (n + 1) hrest
        exact ⟨fun d hd => Nat.le_of_succ_le (ihb d hd), ihc⟩
      · rw [if_neg h2]
        exact ih n hrest

/-- The added-lines loop yields the empty collection exactly when no
line carries the added-line marker. -/
theorem getAddedLinesGo_eq_nil_iff : ∀ (ls : List (List Char)) (n : Nat),
    (getAddedLinesGo ls n = [] ↔
     ls.all (fun l => !(startsWithL ['+'] l && !startsWithL ['+', '+', '+'] l)) = true) := by
  intro ls
  induction ls with
  | nil => intro n; simp [getAddedLinesGo]
  | cons l ls ih =>
    intro n
    cases h : parseHunkHeader l with
    | some v =>
      have hm := (parseHunkHeader_not_marker l v h).1
      simp only [getAddedLinesGo, h, List.all_cons, hm, Bool.false_and, Bool.not_false,
        Bool.true_and]
      exact ih v
    | none =>
      by_cases h1 : (startsWithL ['+'] l && !startsWithL ['+', '+', '+'] l) = true
      · have hunf : getAddedLinesGo (l :: ls) n =
            { lineNumber := n, content := some l.tail, context := none } ::
              getAddedLinesGo ls (n + 1) := by
          simp only [getAddedLinesGo, h]
          rw [if_pos h1]
        rw [hunf]
        constructor
        · intro hx
          exact (List.cons_ne_nil _ _ hx).elim
        · intro hall
          simp only [List.all_cons, Bool.and_eq_true, Bool.not_eq_true'] at hall
          exact absurd (hall.1.symm.trans h1) (by decide)
      · have h1' : (startsWithL ['+'] l && !startsWithL ['+', '+', '+'] l) = false := by
          simpa using h1
        by_cases h2 : startsWithL [' '] l = true
        · simp only [getAddedLinesGo, h, h1', Bool.false_eq_true, if_false, h2, if_true,
            List.all_cons, Bool.not_false, Bool.true_and]
          exact ih (n + 1)
        · have h2' : startsWithL [' '] l = false := by simpa using h2
          simp only [getAddedLinesGo, h, h1', h2', Bool.false_eq_true, if_false,
            List.all_cons, Bool.not_false, Bool.true_and]
          exact ih n

/-- The deleted-lines loop yields the empty collection exactly when no
line carries the removed-line marker. -/
theorem getDeletedLinesGo_eq_nil_iff : ∀ (ls : List (List Char)) (n : Nat),
    (getDeletedLinesGo ls n = [] ↔
     ls.all (fun l => !(startsWithL ['-'] l && !startsWithL ['-', '-', '-'] l)) = true) := by
  intro ls
  induction ls with
  | nil => intro n; simp [getDeletedLinesGo]
  | cons l ls ih =>
    intro n
    cases h : parseHunkHeader l with
    | some v =>
      have hm := (parseHunkHeader_not_marker l v h).2.1
      simp only [getDeletedLinesGo, h, List.all_cons, hm, Bool.false_and, Bool.not_false,
        Bool.true_and]
      exact ih v
    | none =>
      by_cases h1 : (startsWithL ['-'] l && !startsWithL ['-', '-', '-'] l) = true
      · have hunf : getDeletedLinesGo (l :: ls) n =
            { lineNumber := n, content := some l.tail, context := none } ::
              getDeletedLinesGo ls (n + 1) := by
          simp only [getDeletedLinesGo, h]
          rw [if_pos h1]
        rw [hunf]
        constructor
        · intro hx
          exact (List.cons_ne_nil _ _ hx).elim
        · intro hall
          simp only [List.all_cons, Bool.and_eq_true, Bool.not_eq_true'] at hall
          exact absurd (hall.1.symm.trans h1) (by decide)
      · have h1' : (startsWithL ['-'] l && !startsWithL ['-', '-', '-'] l) = false := by
          simpa using h1
        by_cases h2 : startsWithL [' '] l = true
        · simp only [getDeletedLinesGo, h, h1', Bool.false_eq_true, if_false, h2, if_true,
            List.all_cons, Bool.not_false, Bool.true_and]
          exact ih (n + 1)
        · have h2' : startsWithL [' '] l = false := by simpa using h2
          simp only [getDeletedLinesGo, h, h1', h2', Bool.false_eq_true, if_false,
            List.all_cons, Bool.not_false, Bool.true_and]
          exact ih n

/-- Deleting a line whose context passes the exclusion test from
anywhere in the collection leaves the function-matching loop's result
unchanged. -/
theorem cnfGo_middle (table : List JSRegex) :
    ∀ (la lb : List DiffLine) (d : DiffLine),
    excludeTest (jsToStr d.context) = true →
    cnfGo table (la ++ d :: lb) = cnfGo table (la ++ lb) := by
  intro la
  induction la with
  | nil =>
    intro lb d h
    simp only [List.nil_append, cnfGo, h, if_true]
  | cons e la ih =>
    intro lb d h
    simp only [List.cons_append, cnfGo, List.append_eq]
    rw [ih lb d h]

/-- C1: contrary to the specified policy, getDeletedLines increments
the post-change counter after recording a removed line, so with one
removed line followed by a context line the next removed line is
recorded at 3 where the specified no-increment behaviour yields 2. -/
theorem deletedLines_counter_increment_bug :
    (getDeletedLines "@@ -1,3 +1,1 @@\n-a\n b\n-c").map (fun d => d.lineNumber) = [1, 3] ∧
    ([1, 3] : List Nat) ≠ [1, 2] :=
  ⟨rfl, by decide⟩

/-- C2: analyzeDiff raises a TypeError on a js patch with one added
line, because containsNewFunctions reads each record at the key context
while the tracker stores the text under content, and match is then
called on an undefined value. -/
theorem analyzeDiff_raises_on_added_js_line :
    analyzeDiff "+++ b/a.js\n@@ -1,1 +1,1 @@\n+const x = 1;" = .error .typeError :=
  rfl

/-- C3: instead of reporting the added function line with its
post-change number 10, analyzeDiff raises a TypeError; the tracker does
hold the line text and the number 10, but under the key content which
containsNewFunctions never reads. -/
theorem analyzeDiff_raises_on_function_line :
    analyzeDiff "+++ b/calc.js\n@@ -1,0 +10,1 @@\n+function computeTotal(x, y) \x7b" =
      .error .typeError ∧
    (getAddedLines "+++ b/calc.js\n@@ -1,0 +10,1 @@\n+function computeTotal(x, y) \x7b").map
      (fun d => (d.lineNumber, d.content)) =
      [(10, some ("function computeTotal(x, y) \x7b".toList))] :=
  ⟨rfl, rfl⟩

/-- C4: the claim fails on the code: the extension is not lower-cased,
and a patch with no target header yields null rather than the string
unknown. -/
theorem detectLanguage_claim_counterexample :
    detectLanguage "+++ b/A.PY" ≠ some ("py".toList) ∧
    detectLanguage "x" ≠ some ("unknown".toList) := by
  decide

/-- C4 (amended): detectLanguage takes the substring after the last dot
of the stripped and trimmed target path without lower-casing it,
returns none (null) when no line trim-starts with the target marker,
and the returned extension never contains a dot; on the app.py header
it returns py. -/
theorem detectLanguage_behaviour :
    detectLanguage "+++ b/src/app.py" = some ("py".toList) ∧
    detectLanguage "+++ b/A.PY" = some ("PY".toList) ∧
    (∀ patch : String,
      (splitLines patch).all (fun l => !startsWithL ("+++".toList) (trimList l)) = true →
      detectLanguage patch = none) ∧
    (∀ (patch : String) (ext : List Char), detectLanguage patch = some ext → '.' ∉ ext) := by
  refine ⟨rfl, rfl, ?_, detectLanguage_no_dot⟩
  intro patch hp
  exact detectLanguageGo_none _ hp

/-- Witness for the amended C4 statement at a concrete header-free
patch. -/
theorem detectLanguage_behaviour_witness :
    detectLanguage "@@ -1 +1 @@\nplain" = none :=
  detectLanguage_behaviour.2.2.1 "@@ -1 +1 @@\nplain" (by decide)

/-- C5: the claim fails on the code: a target path with a dot whose
last segment contains the tests-directory marker makes the isTestFile
field true (and hasTestChanges undefined, not false). -/
theorem isTestFile_field_counterexample :
    (analyzeDiff "+++ b/a.__tests__/x").map (fun r => r.isTestFile) = .ok true ∧
    (analyzeDiff "+++ b/a.__tests__/x").map (fun r => r.hasTestChanges) = .ok none :=
  ⟨rfl, rfl⟩

/-- C5 (amended): analyzeDiff applies the test-name patterns to the
detected extension rather than to the filename, so whenever the
detected extension does not contain the tests-directory marker the
isTestFile field of a successful analysis is false, and hasTestChanges
is the JS boolean false. -/
theorem isTestFile_field_behaviour :
    ∀ (patch : String) (ext : List Char) (r : AnalysisResult),
    detectLanguage patch = some ext →
    containsSeq ("__tests__/".toList) ext = false →
    analyzeDiff patch = .ok r →
    r.isTestFile = false ∧ r.hasTestChanges = some false := by
  intro patch ext r hdet hsub hok
  have hdot : '.' ∉ ext := detectLanguage_no_dot patch ext hdet
  have hitf : isTestFileL ext = false := isTestFileL_false_of ext hdot hsub
  have hjs : isTestFileJS (detectLanguage patch) = false := by
    rw [hdet]
    simpa [isTestFileJS] using hitf
  unfold analyzeDiff at hok
  cases h1 : containsNewFunctions (getAddedLines patch) (detectLanguage patch) with
  | error e =>
    rw [h1] at hok
    exact Except.noConfusion hok
  | ok fnRes =>
    rw [h1] at hok
    cases h2 : containsImports (getAddedLines patch) (detectLanguage patch) with
    | error e =>
      rw [h2] at hok
      exact Except.noConfusion hok
    | ok impRes =>
      rw [h2] at hok
      have h3 : (if isTestFileJS (detectLanguage patch)
                 then hasTestChangesFn (getAddedLines patch)
                 else (.ok (some false) : Except JSError (Option Bool))) = .ok (some false) := by
        rw [hjs]
        rfl
      rw [h3] at hok
      injection hok with h4
      subst h4
      exact ⟨hjs, rfl⟩

/-- Witness for the amended C5 statement on a dotted test filename. -/
theorem isTestFile_field_behaviour_witness :
    ({ addedLines := [], deletedLines := [], filename := some ("js".toList),
       isTestFile := false,
       hasNewFunctions := { hasNewFunctions := false, newFunctions := [], lineNumbers := [],
                            language := some ("js".toList) },
       hasImportChanges := [], hasTestChanges := some false } : AnalysisResult).isTestFile =
        false ∧
    ({ addedLines := [], deletedLines := [], filename := some ("js".toList),
       isTestFile := false,
       hasNewFunctions := { hasNewFunctions := false, newFunctions := [], lineNumbers := [],
                            language := some ("js".toList) },
       hasImportChanges := [], hasTestChanges := some false } : AnalysisResult).hasTestChanges =
        some false :=
  isTestFile_field_behaviour "+++ b/calculator.test.js" ("js".toList) _ rfl rfl rfl

/-- C6: the claim fails on the code: without any hunk header the
trackers still collect marker lines, numbering them from 0, so the
results are not empty. -/
theorem trackers_claim_counterexample :
    getAddedLines "+x" ≠ [] ∧ getDeletedLines "-y" ≠ [] := by
  decide

/-- C6 (amended): on a patch without hunk headers the trackers return
without error, and the result is empty exactly when no line carries the
corresponding marker (lines starting with the three-character file
markers excepted). -/
theorem trackers_empty_iff_no_markers : ∀ patch : String,
    (splitLines patch).all (fun l => (parseHunkHeader l).isNone) = true →
    ((getAddedLines patch = [] ↔
      (splitLines patch).all
        (fun l => !(startsWithL ['+'] l && !startsWithL ['+', '+', '+'] l)) = true) ∧
     (getDeletedLines patch = [] ↔
      (splitLines patch).all
        (fun l => !(startsWithL ['-'] l && !startsWithL ['-', '-', '-'] l)) = true)) := by
  intro patch _
  exact ⟨getAddedLinesGo_eq_nil_iff _ 0, getDeletedLinesGo_eq_nil_iff _ 0⟩

/-- Witness for the amended C6 statement at a concrete header-free
patch. -/
theorem trackers_empty_iff_no_markers_witness :
    ((getAddedLines "abc" = [] ↔
      (splitLines "abc").all
        (fun l => !(startsWithL ['+'] l && !startsWithL ['+', '+', '+'] l)) = true) ∧
     (getDeletedLines "abc" = [] ↔
      (splitLines "abc").all
        (fun l => !(startsWithL ['-'] l && !startsWithL ['-', '-', '-'] l)) = true)) :=
  trackers_empty_iff_no_markers "abc" (by decide)

/-- C7: the claim fails on the code: a second hunk header with a
smaller declared start makes the recorded numbers decrease across
hunks. -/
theorem addedLines_monotone_counterexample :
    ¬ List.Chain' (· ≤ ·)
      ((getAddedLines "@@ -1,1 +5,1 @@\n+a\n@@ -1,1 +1,1 @@\n+b").map
        (fun d => d.lineNumber)) := by
  intro hch
  have hmap : (getAddedLines "@@ -1,1 +5,1 @@\n+a\n@@ -1,1 +1,1 @@\n+b").map
      (fun d => d.lineNumber) = [5, 1] := rfl
  rw [hmap] at hch
  exact absurd (List.chain'_cons.mp hch).1 (by decide)

/-- C7 (amended): each hunk header restarts the running counter at its
declared new-start value, and within the lines after the last hunk
header the recorded numbers are at least that value and strictly
increasing; monotonicity holds within a hunk but not necessarily
across hunk boundaries. -/
theorem addedLines_restart_and_monotone :
    ∀ (patch : String) (pre : List (List Char)) (hdr : List Char)
      (post : List (List Char)) (v : Nat),
    splitLines patch = pre ++ hdr :: post →
    parseHunkHeader hdr = some v →
    (∀ l ∈ post, parseHunkHeader l = none) →
    getAddedLines patch = getAddedLinesGo pre 0 ++ getAddedLinesGo post v ∧
    (∀ d ∈ getAddedLinesGo post v, v ≤ d.lineNumber) ∧
    List.Chain' (· < ·) ((getAddedLinesGo post v).map (fun d => d.lineNumber)) := by
  intro patch pre hdr post v hsplit hhdr hpost
  obtain ⟨hb, hc⟩ := getAddedLinesGo_mono post v hpost
  refine ⟨?_, hb, hc⟩
  unfold getAddedLines
  rw [hsplit, getAddedLinesGo_append]
  congr 1
  simp only [getAddedLinesGo, hhdr]

/-- Witness for the amended C7 statement on a concrete one-hunk
patch starting at 7. -/
theorem addedLines_restart_and_monotone_witness :
    getAddedLines "@@ -1,1 +7,2 @@\n+a\n b\n+c" =
      getAddedLinesGo [] 0 ++
      getAddedLinesGo ["+a".toList, " b".toList, "+c".toList] 7 :=
  (addedLines_restart_and_monotone "@@ -1,1 +7,2 @@\n+a\n b\n+c" []
    ("@@ -1,1 +7,2 @@".toList) ["+a".toList, " b".toList, "+c".toList] 7
    (by decide) (by decide) (by decide)).1

/-- C8: a line whose context matches the control-flow exclusion pattern
is never recorded as a new function, whatever function patterns it also
matches: removing it from any added-line collection leaves
containsNewFunctions unchanged, for every language. -/
theorem excluded_line_never_recorded :
    ∀ (language : Option (List Char)) (la lb : List DiffLine) (d : DiffLine),
    excludeTest (jsToStr d.context) = true →
    containsNewFunctions (la ++ d :: lb) language = containsNewFunctions (la ++ lb) language := by
  intro language la lb d h
  cases hft : funcTable language with
  | none => simp only [containsNewFunctions, hft]
  | some table =>
    simp only [containsNewFunctions, hft]
    rw [cnfGo_middle table la lb d h]

/-- Witness for C8 at the control-flow for-loop line under the js
table. -/
theorem excluded_line_never_recorded_witness :
    containsNewFunctions
        ([] ++ ({ lineNumber := 3, content := none,
                  context := some ("for (let i = 0; i < 10; i++) \x7b".toList) } :
                  DiffLine) :: [])
        (some ("js".toList)) =
      containsNewFunctions ([] ++ []) (some ("js".toList)) :=
  excluded_line_never_recorded (some ("js".toList)) [] []
    { lineNumber := 3, content := none,
      context := some ("for (let i = 0; i < 10; i++) \x7b".toList) } (by decide)

/-- C9: isTestFile on the five concrete filenames of the specification:
true for the four test-style names, false for the plain one. -/
theorem isTestFile_concrete_names :
    isTestFile "calculator.test.js" = true ∧ isTestFile "__tests__/calc.js" = true ∧
    isTestFile "test_calc.py" = true ∧ isTestFile "calc_test.py" = true ∧
    isTestFile "calculator.js" = false := by
  decide

/-- C10: analyzeDiff is a pure function of the patch text: the exported
parser instance carries no mutable state, and two successive calls with
the same patch through it return equal results. -/
theorem analyzeDiff_deterministic : ∀ patch : String,
    (analyzeDiffCall diffParserState patch).1 =
    (analyzeDiffCall (analyzeDiffCall diffParserState patch).2 patch).1 :=
  fun _ => rfl
